import Mathlib

/-!
Verification of the Power-Curve-Modelling core (src/utils/generation.py).

The numeric model is exact rational arithmetic (ℚ) for Python floats.
Where the Python code can produce NaN/Inf (division by zero in numpy),
the embedding returns `Option ℚ` with `none` standing for the undefined
IEEE result.  numpy primitives used by the source are modelled explicitly:
`np.arange` (half-open range, length ⌈(stop-start)/step⌉), `np.histogram`
(half-open bins, last bin closed), `np.round` (round half to even),
`np.max` / `np.argmax` (maximum value / first index attaining it).
-/

/-- Model of numpy.arange(start, stop, step) for step > 0: the values
start + step*k for k = 0, 1, ..., with length ⌈(stop-start)/step⌉. -/
def arange (start stop step : ℚ) : List ℚ :=
  (List.range (⌈(stop - start) / step⌉).toNat).map (fun (k : ℕ) => start + step * (k : ℚ))

/-- Model of numpy.round: round half to even (banker rounding), the IEEE
default used by np.round. -/
def roundHalfEven (q : ℚ) : ℤ :=
  if q - ⌊q⌋ < 1/2 then ⌊q⌋
  else if 1/2 < q - ⌊q⌋ then ⌊q⌋ + 1
  else if ⌊q⌋ % 2 = 0 then ⌊q⌋ else ⌊q⌋ + 1

/-- Number of samples of xs in the bin with edges lo (inclusive) and hi;
hi is exclusive except in the last bin of a histogram, which numpy closes
on both ends. -/
def countBin (lo hi : ℚ) (lastBin : Bool) (xs : List ℚ) : ℕ :=
  xs.countP (fun x => decide (lo ≤ x) && (if lastBin then decide (x ≤ hi) else decide (x < hi)))

/-- Model of numpy.histogram(xs, bins=edges)[0]: counts per bin, bins
half-open [e_i, e_i+1) with the final bin closed. -/
def histCounts (edges : List ℚ) (xs : List ℚ) : List ℕ :=
  (List.range (edges.length - 1)).map (fun i =>
    countBin (edges.getD i 0) (edges.getD (i + 1) 0) (i + 2 = edges.length) xs)

/-- Histogram table: `index` is the list of bin upper edges (the source
sets histograms.index = bins[1:]), `counts` the per-node count vectors. -/
structure HistTable where
  index : List ℚ
  counts : List (List ℕ)
deriving DecidableEq

/-- Embedding of get_histograms: bins = np.arange(0, max_velocity + bin_size,
bin_size); per node the numpy histogram counts; index = bins[1:]. -/
def get_histograms (data : List (List ℚ)) (bin_size : ℚ) (max_velocity : ℚ) : HistTable :=
  let bins := arange 0 (max_velocity + bin_size) bin_size
  { index := bins.drop 1, counts := data.map (histCounts bins) }

/-- Per-node body of get_frequency: divide each count by the node total.
When the total is zero the Python division yields NaN (0/0) for every
entry, modelled as `none`; otherwise each entry is the exact quotient. -/
def nodeFrequency (counts : List ℕ) : List (Option ℚ) :=
  if counts.sum = 0 then counts.map (fun _ => none)
  else counts.map (fun (c : ℕ) => some ((c : ℚ) / ((counts.sum : ℕ) : ℚ)))

/-- Frequency table: same index as the histogram table; values are per-node
relative frequencies, `none` marking an undefined (NaN) float. -/
structure FreqTable where
  index : List ℚ
  values : List (List (Option ℚ))
deriving DecidableEq

/-- Embedding of get_frequency: histograms.div(histograms.sum(axis=0), axis=1). -/
def get_frequency (histograms : HistTable) : FreqTable :=
  { index := histograms.index, values := histograms.counts.map nodeFrequency }

/-- Body of the inner loop of gen_power_curves: the piecewise power value at
velocity v for the pair (vci, vco), exactly as the source branches are
written (if v < vci / elif vci <= v < vco / else). -/
def powerValue (cp swept_area water_density vci vco v : ℚ) : ℚ :=
  if v < vci then 0
  else if vci ≤ v ∧ v < vco then 1/2 * cp * swept_area * water_density * v ^ 3
  else 1/2 * cp * swept_area * water_density * vco ^ 3

/-- Embedding of gen_power_curves: the cut-in sweep
np.arange(min_ci_speed, min_ci_speed*4 + delta_speed, delta_speed), the
derived cut-out vector np.round(ci*(100/min_rate_pct)/delta)*delta, and one
power curve per parameter pair over the frequency-table index (the source
transposes the matrix for output; entries are identical). -/
def gen_power_curves (frequencies : FreqTable) (min_ci_speed min_rate_pct delta_speed swept_area cp water_density : ℚ) :
    List ℚ × List ℚ × List (List ℚ) :=
  let minimum_ci_vector := arange min_ci_speed (min_ci_speed * 4 + delta_speed) delta_speed
  let maximum_co_vector := minimum_ci_vector.map
    (fun v => (roundHalfEven (v * (100 / min_rate_pct) / delta_speed) : ℚ) * delta_speed)
  let velocities := frequencies.index
  let power_curves := (List.range minimum_ci_vector.length).map (fun i =>
    velocities.map (powerValue cp swept_area water_density
      (minimum_ci_vector.getD i 0) (maximum_co_vector.getD i 0)))
  (minimum_ci_vector, maximum_co_vector, power_curves)

/-- Per-sample piecewise power rule of cumulate_power_time_series: cut-in
rated_speed*0.3, cut-out rated_speed, written exactly as its branches. -/
def samplePowerTS (cp swept_area density rated_speed v : ℚ) : ℚ :=
  if v < rated_speed * (3/10) then 0
  else if rated_speed * (3/10) ≤ v ∧ v < rated_speed then 1/2 * cp * swept_area * density * v ^ 3
  else 1/2 * cp * swept_area * density * rated_speed ^ 3

/-- Embedding of cumulate_power_time_series: for each rated speed of
np.arange(min, max + delta, delta), the actual energy (sum of the piecewise
rule over every sample of every node), and the capacity factor
actual/ideal where ideal gives every sample rated power unconditionally;
a zero ideal makes the float quotient NaN, modelled as `none`. -/
def cumulate_power_time_series (min_rated_speed max_rated_speed : ℚ) (filtered_nodes : List (List ℚ))
    (delta density swept_area cp : ℚ) : List ℚ × List (Option ℚ) :=
  let rated_speed_vector := arange min_rated_speed (max_rated_speed + delta) delta
  let cumulated_power := rated_speed_vector.map (fun rs =>
    (filtered_nodes.map (fun node => (node.map (samplePowerTS cp swept_area density rs)).sum)).sum)
  let ideal_cumulated_power := rated_speed_vector.map (fun rs =>
    (filtered_nodes.map (fun node =>
      (node.map (fun _ => 1/2 * cp * swept_area * density * rs ^ 3)).sum)).sum)
  let capacity_factor := List.zipWith
    (fun a b => if b = 0 then none else some (a / b)) cumulated_power ideal_cumulated_power
  (cumulated_power, capacity_factor)

/-- Per-sample piecewise power rule of optimal_rs_per_node, written from
its own loop body (textually the same rule as in the time-series
evaluator). -/
def samplePowerOpt (cp swept_area density rated_speed v : ℚ) : ℚ :=
  if v < rated_speed * (3/10) then 0
  else if rated_speed * (3/10) ≤ v ∧ v < rated_speed then 1/2 * cp * swept_area * density * v ^ 3
  else 1/2 * cp * swept_area * density * rated_speed ^ 3

/-- The power_per_rs vector computed inside optimal_rs_per_node for one
node: the cumulative energy of that node at each rated speed of the sweep. -/
def power_per_rs (cp swept_area density : ℚ) (rated_speed_vector : List ℚ) (node : List ℚ) : List ℚ :=
  rated_speed_vector.map (fun rs => (node.map (samplePowerOpt cp swept_area density rs)).sum)

/-- Model of numpy.max on a nonempty vector (0 for the empty vector, where
numpy raises instead). -/
def npmax : List ℚ → ℚ
  | [] => 0
  | x :: xs => xs.foldl max x

/-- Model of numpy.argmax: the first index at which the maximum occurs. -/
def npargmax (l : List ℚ) : ℕ := l.indexOf (npmax l)

/-- Embedding of optimal_rs_per_node: per node, the rated speed of the
sweep at np.argmax of power_per_rs, and np.max of power_per_rs. -/
def optimal_rs_per_node (min_rated_speed max_rated_speed : ℚ) (filtered_nodes : List (List ℚ))
    (delta density swept_area cp : ℚ) : List ℚ × List ℚ :=
  let rated_speed_vector := arange min_rated_speed (max_rated_speed + delta) delta
  let optimal_rs := filtered_nodes.map (fun node =>
    rated_speed_vector.getD (npargmax (power_per_rs cp swept_area density rated_speed_vector node)) 0)
  let optimal_power := filtered_nodes.map (fun node =>
    npmax (power_per_rs cp swept_area density rated_speed_vector node))
  (optimal_rs, optimal_power)

/-! ### Helper lemmas about the numpy models -/

lemma arange_length (start stop step : ℚ) :
    (arange start stop step).length = (⌈(stop - start) / step⌉).toNat := by
  unfold arange
  rw [List.length_map, List.length_range]

lemma getD_map_of_lt {α β : Type} (l : List α) (f : α → β) (m : ℕ) (hm : m < l.length)
    (d : β) (d0 : α) : (l.map f).getD m d = f (l.getD m d0) := by
  simp [List.getD_eq_getElem?_getD, List.getElem?_eq_getElem, hm]

lemma getD_range_of_lt (n m : ℕ) (hm : m < n) (d : ℕ) : (List.range n).getD m d = m := by
  simp [List.getD_eq_getElem?_getD, List.getElem?_eq_getElem, hm]

lemma arange_getD (start stop step : ℚ) (k : ℕ) (hk : k < (arange start stop step).length)
    (d : ℚ) : (arange start stop step).getD k d = start + step * k := by
  rw [arange_length] at hk
  unfold arange
  rw [getD_map_of_lt _ _ k (by simpa using hk) d 0,
    getD_range_of_lt _ _ (by simpa using hk)]

lemma roundHalfEven_ge (q : ℚ) : q - 1/2 ≤ (roundHalfEven q : ℚ) := by
  have h0 : ((⌊q⌋ : ℤ) : ℚ) ≤ q := Int.floor_le q
  have h1 : q < (⌊q⌋ : ℚ) + 1 := Int.lt_floor_add_one q
  unfold roundHalfEven
  split_ifs <;> push_cast <;> linarith

lemma roundHalfEven_le (q : ℚ) : (roundHalfEven q : ℚ) ≤ q + 1/2 := by
  have h0 : ((⌊q⌋ : ℤ) : ℚ) ≤ q := Int.floor_le q
  have h1 : q < (⌊q⌋ : ℚ) + 1 := Int.lt_floor_add_one q
  unfold roundHalfEven
  split_ifs with hlt hgt <;> push_cast <;> linarith

lemma sum_pos_of_exists_mem (l : List ℚ) (hnn : ∀ x ∈ l, 0 ≤ x) (y : ℚ) (hy : y ∈ l)
    (hypos : 0 < y) : 0 < l.sum := by
  induction l with
  | nil => cases hy
  | cons a t ih =>
    rw [List.sum_cons]
    rcases List.mem_cons.mp hy with rfl | hyt
    · have : 0 ≤ t.sum := List.sum_nonneg (fun x hx => hnn x (List.mem_cons_of_mem _ hx))
      linarith
    · have ha : 0 ≤ a := hnn a (List.mem_cons_self _ _)
      have := ih (fun x hx => hnn x (List.mem_cons_of_mem _ hx)) hyt
      linarith

lemma foldl_max_init_le (xs : List ℚ) (a : ℚ) : a ≤ xs.foldl max a := by
  induction xs generalizing a with
  | nil => simp
  | cons x t ih => exact le_trans (le_max_left a x) (ih (max a x))

lemma le_foldl_max (xs : List ℚ) (a x : ℚ) (hx : x ∈ xs) : x ≤ xs.foldl max a := by
  induction xs generalizing a with
  | nil => cases hx
  | cons b t ih =>
    rcases List.mem_cons.mp hx with rfl | hxt
    · exact le_trans (le_max_right a x) (foldl_max_init_le t (max a x))
    · exact ih (max a b) hxt

lemma foldl_max_mem (xs : List ℚ) (a : ℚ) : xs.foldl max a = a ∨ xs.foldl max a ∈ xs := by
  induction xs generalizing a with
  | nil => left; rfl
  | cons b t ih =>
    rcases ih (max a b) with h | h
    · rcases max_cases a b with ⟨hm, _⟩ | ⟨hm, _⟩
      · left; rw [List.foldl_cons, h, hm]
      · right; rw [List.foldl_cons, h, hm]; exact List.mem_cons_self _ _
    · right; exact List.mem_cons_of_mem _ h

lemma npmax_mem (l : List ℚ) (hl : l ≠ []) : npmax l ∈ l := by
  cases l with
  | nil => exact absurd rfl hl
  | cons x t =>
    rcases foldl_max_mem t x with h | h
    · rw [npmax, h]; exact List.mem_cons_self _ _
    · exact List.mem_cons_of_mem _ h

lemma le_npmax (l : List ℚ) (x : ℚ) (hx : x ∈ l) : x ≤ npmax l := by
  cases l with
  | nil => cases hx
  | cons b t =>
    rcases List.mem_cons.mp hx with rfl | hxt
    · exact foldl_max_init_le t x
    · exact le_foldl_max t b x hxt

lemma getD_indexOf (l : List ℚ) (a : ℚ) (ha : a ∈ l) : l.getD (l.indexOf a) 0 = a := by
  have h := List.indexOf_lt_length.mpr ha
  rw [List.getD_eq_getElem?_getD, List.getElem?_eq_getElem h, List.getElem_indexOf h]
  rfl

lemma getD_lt_of_indexOf (l : List ℚ) (a : ℚ) (k : ℕ) (hk : k < l.indexOf a) :
    l.getD k 0 ≠ a := by
  induction l generalizing k with
  | nil => simp [List.indexOf] at hk
  | cons b t ih =>
    by_cases hba : b = a
    · rw [hba, List.indexOf_cons_self] at hk; omega
    · rw [List.indexOf_cons_ne _ hba] at hk
      cases k with
      | zero => simpa using hba
      | succ m =>
        have : t.getD m 0 ≠ a := ih m (Nat.lt_of_succ_lt_succ hk)
        simpa using this

lemma getD_mem_of_lt (l : List ℚ) (k : ℕ) (hk : k < l.length) (d : ℚ) : l.getD k d ∈ l := by
  rw [List.getD_eq_getElem?_getD, List.getElem?_eq_getElem hk]
  exact List.getElem_mem hk

lemma indicator_split (a b c x : ℚ) (hab : a ≤ b) (hbc : b ≤ c) (cl : Bool) :
    ((if a ≤ x ∧ x < b then 1 else 0) +
      (if b ≤ x ∧ (if cl then x ≤ c else x < c) then 1 else 0) : ℕ) =
    if a ≤ x ∧ (if cl then x ≤ c else x < c) then 1 else 0 := by
  cases cl
  · rcases lt_or_le x b with hxb | hbx
    · have h2 : ¬(b ≤ x ∧ x < c) := fun h => absurd h.1 (not_le.mpr hxb)
      have hxc : x < c := hxb.trans_le hbc
      simp [h2, hxb, hxc]
    · have h1 : ¬(a ≤ x ∧ x < b) := fun h => absurd h.2 (not_lt.mpr hbx)
      have hax : a ≤ x := hab.trans hbx
      simp [h1, hbx, hax]
  · rcases lt_or_le x b with hxb | hbx
    · have h2 : ¬(b ≤ x ∧ x ≤ c) := fun h => absurd h.1 (not_le.mpr hxb)
      have hxc : x ≤ c := le_of_lt (hxb.trans_le hbc)
      simp [h2, hxb, hxc]
    · have h1 : ¬(a ≤ x ∧ x < b) := fun h => absurd h.2 (not_lt.mpr hbx)
      have hax : a ≤ x := hab.trans hbx
      simp [h1, hbx, hax]

lemma countP_add_pointwise (p q r : ℚ → Bool)
    (h : ∀ x, ((if p x then 1 else 0) + (if q x then 1 else 0) : ℕ) = if r x then 1 else 0)
    (xs : List ℚ) : xs.countP p + xs.countP q = xs.countP r := by
  induction xs with
  | nil => rfl
  | cons x t ih =>
    simp only [List.countP_cons]
    have := h x
    omega

lemma countBin_split (a b c : ℚ) (hab : a ≤ b) (hbc : b ≤ c) (cl : Bool) (xs : List ℚ) :
    countBin a b false xs + countBin b c cl xs = countBin a c cl xs := by
  apply countP_add_pointwise
  intro x
  have key := indicator_split a b c x hab hbc cl
  cases cl <;> simpa using key

lemma countBin_of_degenerate (a b : ℚ) (hba : b ≤ a) (xs : List ℚ) :
    countBin a b false xs = 0 := by
  unfold countBin
  rw [List.countP_eq_zero]
  intro x hx
  simp only [Bool.and_eq_true, decide_eq_true_eq, Bool.false_eq_true, if_false, not_and, not_lt]
  intro h1
  linarith

lemma sum_uniform_bins (s : ℚ) (hs : 0 ≤ s) (xs : List ℚ) (m : ℕ) :
    ((List.range m).map (fun (i : ℕ) =>
      countBin (s * (i : ℚ)) (s * ((i : ℚ) + 1)) false xs)).sum
      = countBin 0 (s * (m : ℚ)) false xs := by
  induction m with
  | zero =>
    simp only [List.range_zero, List.map_nil, List.sum_nil, Nat.cast_zero, mul_zero]
    exact (countBin_of_degenerate 0 0 le_rfl xs).symm
  | succ m ih =>
    rw [List.range_succ, List.map_append, List.sum_append]
    simp only [List.map_cons, List.map_nil, List.sum_cons, List.sum_nil, add_zero]
    rw [ih]
    have h1 : (0 : ℚ) ≤ s * m := mul_nonneg hs (Nat.cast_nonneg m)
    have h2 : s * (m : ℚ) ≤ s * ((m : ℚ) + 1) :=
      mul_le_mul_of_nonneg_left (by linarith) hs
    have := countBin_split 0 (s * (m : ℚ)) (s * ((m : ℚ) + 1)) h1 h2 false xs
    push_cast
    omega

lemma arange_hist_length (s M : ℚ) (hs : 0 < s) (hM : 0 < M) :
    (arange 0 (M + s) s).length = (⌈M / s⌉).toNat + 1 := by
  have h : (M + s - 0) / s = M / s + 1 := by field_simp
  have hpos : 0 < ⌈M / s⌉ := Int.ceil_pos.mpr (div_pos hM hs)
  rw [arange_length, h, Int.ceil_add_one]
  omega

lemma arange_hist_length_ge_two (s M : ℚ) (hs : 0 < s) (hM : 0 < M) :
    2 ≤ (arange 0 (M + s) s).length := by
  have hpos : 0 < ⌈M / s⌉ := Int.ceil_pos.mpr (div_pos hM hs)
  rw [arange_hist_length s M hs hM]
  omega

lemma histCounts_sum (s M : ℚ) (hs : 0 < s) (hM : 0 < M) (xs : List ℚ) :
    (histCounts (arange 0 (M + s) s) xs).sum
      = countBin 0 (s * (((arange 0 (M + s) s).length - 1 : ℕ) : ℚ)) true xs := by
  obtain ⟨m, hm⟩ : ∃ m, (arange 0 (M + s) s).length = m + 2 :=
    ⟨(arange 0 (M + s) s).length - 2, by have := arange_hist_length_ge_two s M hs hM; omega⟩
  have hmap : histCounts (arange 0 (M + s) s) xs
      = (List.range (m + 1)).map (fun (i : ℕ) =>
          countBin (s * (i : ℚ)) (s * ((i : ℚ) + 1)) (decide (i + 2 = m + 2)) xs) := by
    unfold histCounts
    rw [hm]
    have h21 : m + 2 - 1 = m + 1 := by omega
    rw [h21]
    apply List.map_congr_left
    intro i hi
    have hi' : i < m + 1 := List.mem_range.mp hi
    rw [arange_getD 0 (M + s) s i (by rw [hm]; omega) 0,
      arange_getD 0 (M + s) s (i + 1) (by rw [hm]; omega) 0]
    congr 1 <;> push_cast <;> ring
  rw [hmap, List.range_succ, List.map_append, List.sum_append]
  simp only [List.map_cons, List.map_nil, List.sum_cons, List.sum_nil, add_zero]
  have hfirst : (List.range m).map (fun (i : ℕ) =>
      countBin (s * (i : ℚ)) (s * ((i : ℚ) + 1)) (decide (i + 2 = m + 2)) xs)
      = (List.range m).map (fun (i : ℕ) =>
        countBin (s * (i : ℚ)) (s * ((i : ℚ) + 1)) false xs) := by
    apply List.map_congr_left
    intro i hi
    have hi' : i < m := List.mem_range.mp hi
    have hd : decide (i + 2 = m + 2) = false := decide_eq_false (by omega)
    rw [hd]
  rw [hfirst, sum_uniform_bins s (le_of_lt hs) xs m]
  simp only [decide_True]
  rw [hm]
  have h21 : m + 2 - 1 = m + 1 := by omega
  rw [h21]
  have key := countBin_split 0 (s * (m : ℚ)) (s * ((m : ℚ) + 1))
    (mul_nonneg hs.le (Nat.cast_nonneg m))
    (mul_le_mul_of_nonneg_left (by linarith) hs.le) true xs
  have hcast : ((m + 1 : ℕ) : ℚ) = (m : ℚ) + 1 := by push_cast; ring
  rw [hcast]
  exact key

/-! ### Claim theorems -/

/-- C6: for every cut-in value in the generated sweep, the derived cut-out
equals round((vci * 100/min_rate_pct) / delta) * delta under the host
rounding convention (numpy rounds half to even); in particular for
min_cut_in = 0.2 = 1/5, min_rate_pct = 30 and delta = 0.025 = 1/40 the
first returned cut-out equals 0.675 = 27/40. -/
theorem C6_cutout_formula (f : FreqTable) (min_ci pct delta A cp rho : ℚ) (i : ℕ)
    (hi : i < (gen_power_curves f min_ci pct delta A cp rho).1.length) :
    (gen_power_curves f min_ci pct delta A cp rho).2.1.getD i 0
      = (roundHalfEven ((gen_power_curves f min_ci pct delta A cp rho).1.getD i 0
          * (100 / pct) / delta) : ℚ) * delta
    ∧ (gen_power_curves ⟨[], []⟩ (1/5) 30 (1/40) 1 (37/100) 1025).2.1.getD 0 0 = 27/40 := by
  constructor
  · simp only [gen_power_curves] at hi ⊢
    rw [getD_map_of_lt _ _ i (by simpa using hi) 0 0]
  · with_unfolding_all decide

/-- C6 witness at a concrete index and parameter set. -/
theorem C6_cutout_formula_witness :
    (0 : ℕ) < (gen_power_curves ⟨[], []⟩ (1/5) 30 (1/40) 1 (37/100) 1025).1.length
    ∧ (gen_power_curves ⟨[], []⟩ (1/5) 30 (1/40) 1 (37/100) 1025).2.1.getD 0 0
        = (roundHalfEven ((gen_power_curves ⟨[], []⟩ (1/5) 30 (1/40) 1 (37/100) 1025).1.getD 0 0
            * (100 / 30) / (1/40)) : ℚ) * (1/40) :=
  ⟨by with_unfolding_all decide, (C6_cutout_formula ⟨[], []⟩ (1/5) 30 (1/40) 1 (37/100) 1025 0 (by with_unfolding_all decide)).1⟩

/-- C10: the entire output of gen_power_curves depends only on the index of
the frequency table and the numeric parameters, never on the frequency
values: two tables with the same index give identical results. -/
theorem C10_values_noninterference (f g : FreqTable) (min_ci pct delta A cp rho : ℚ)
    (h : f.index = g.index) :
    gen_power_curves f min_ci pct delta A cp rho
      = gen_power_curves g min_ci pct delta A cp rho := by
  simp only [gen_power_curves, h]

/-- C10 witness: two frequency tables with equal index and different values
produce identical generator output. -/
theorem C10_values_noninterference_witness :
    (FreqTable.mk [1] [[some 0]]).index = (FreqTable.mk [1] [[some 1]]).index
    ∧ gen_power_curves ⟨[1], [[some 0]]⟩ 1 50 1 1 1 1
        = gen_power_curves ⟨[1], [[some 1]]⟩ 1 50 1 1 1 1 :=
  ⟨rfl, C10_values_noninterference ⟨[1], [[some 0]]⟩ ⟨[1], [[some 1]]⟩ 1 50 1 1 1 1 rfl⟩

/-- C4: for every histogram node with nonzero total count, the frequencies
returned by get_frequency for that node are all defined and sum to exactly 1
(hence within any floating tolerance of 1). -/
theorem C4_frequency_sums_to_one (h : HistTable) (n : ℕ)
    (hlen : n < h.counts.length) (hn : (h.counts.getD n []).sum ≠ 0) :
    (((get_frequency h).values.getD n []).map (fun o => o.getD 0)).sum = 1
    ∧ ∀ o ∈ (get_frequency h).values.getD n [], o.isSome = true := by
  have hval : (get_frequency h).values.getD n [] = nodeFrequency (h.counts.getD n []) := by
    simp only [get_frequency]
    exact getD_map_of_lt h.counts nodeFrequency n hlen [] []
  rw [hval]
  unfold nodeFrequency
  rw [if_neg hn]
  constructor
  · rw [List.map_map]
    have hfun : ((fun (o : Option ℚ) => o.getD 0)
        ∘ fun (c : ℕ) => some ((c : ℚ) / (((h.counts.getD n []).sum : ℕ) : ℚ)))
        = fun (c : ℕ) => (c : ℚ) * ((((h.counts.getD n []).sum : ℕ) : ℚ))⁻¹ := by
      funext c
      simp [div_eq_mul_inv]
    rw [hfun, List.sum_map_mul_right]
    have hcast : ((h.counts.getD n []).map (fun (c : ℕ) => (c : ℚ))).sum
        = (((h.counts.getD n []).sum : ℕ) : ℚ) := (Nat.cast_list_sum _).symm
    rw [hcast]
    exact mul_inv_cancel₀ (Nat.cast_ne_zero.mpr hn)
  · intro o ho
    rcases List.mem_map.mp ho with ⟨c, _, rfl⟩
    rfl

/-- C4 witness on a concrete two-bin histogram with counts 1 and 3. -/
theorem C4_frequency_sums_to_one_witness :
    (0 : ℕ) < (HistTable.mk [1, 2] [[1, 3]]).counts.length
    ∧ ((HistTable.mk [1, 2] [[1, 3]]).counts.getD 0 []).sum ≠ 0
    ∧ (((get_frequency ⟨[1, 2], [[1, 3]]⟩).values.getD 0 []).map (fun o => o.getD 0)).sum = 1 :=
  ⟨by decide, by decide,
    (C4_frequency_sums_to_one ⟨[1, 2], [[1, 3]]⟩ 0 (by decide) (by decide)).1⟩

/-- C3 counterexample: on a histogram whose single node has zero total
count, get_frequency returns an ordinary frequency table whose values are
the undefined float marker (NaN from 0.0/0.0), so no typed DivisionByZero
error is surfaced: the call completes and yields a value. -/
theorem C3_counterexample :
    get_frequency ⟨[1], [[0]]⟩ = ⟨[1], [[none]]⟩ := by
  with_unfolding_all decide

/-- C3 amended: for every histogram node whose total count is zero,
get_frequency silently produces the undefined (NaN) marker in every bin of
that node, one output entry per input bin, instead of surfacing an error. -/
theorem C3_zero_total_silent_nan (h : HistTable) (n : ℕ)
    (hlen : n < h.counts.length) (hz : (h.counts.getD n []).sum = 0) :
    (∀ o ∈ (get_frequency h).values.getD n [], o = none)
    ∧ ((get_frequency h).values.getD n []).length = (h.counts.getD n []).length := by
  have hval : (get_frequency h).values.getD n [] = nodeFrequency (h.counts.getD n []) := by
    simp only [get_frequency]
    exact getD_map_of_lt h.counts nodeFrequency n hlen [] []
  rw [hval]
  unfold nodeFrequency
  rw [if_pos hz]
  constructor
  · intro o ho
    rcases List.mem_map.mp ho with ⟨c, hc, h⟩
    exact h.symm
  · exact List.length_map _ _

/-- C3 amended witness on the concrete zero-count histogram. -/
theorem C3_zero_total_silent_nan_witness :
    (0 : ℕ) < (HistTable.mk [1] [[0]]).counts.length
    ∧ ((HistTable.mk [1] [[0]]).counts.getD 0 []).sum = 0
    ∧ ∀ o ∈ (get_frequency ⟨[1], [[0]]⟩).values.getD 0 [], o = none :=
  ⟨by decide, by decide,
    (C3_zero_total_silent_nan ⟨[1], [[0]]⟩ 0 (by decide) (by decide)).1⟩

/-- C1: for every velocity bin edge and generated (vci, vco) pair with
vci ≤ vco (the shape the spec presupposes, and which the generator yields
for ratio settings below 100 percent), the power-curve entry is 0 below
cut-in, the cubic law 0.5*Cp*A*rho*v^3 from cut-in (inclusive) up to
cut-out (exclusive), and the saturated value 0.5*Cp*A*rho*vco^3 from
cut-out (inclusive) upward; in particular v = vci lands in the cubic
branch and v = vco in the saturated branch. -/
theorem C1_power_piecewise (f : FreqTable) (min_ci pct delta A cp rho : ℚ) (i k : ℕ)
    (hi : i < (gen_power_curves f min_ci pct delta A cp rho).1.length)
    (hk : k < f.index.length)
    (hpair : (gen_power_curves f min_ci pct delta A cp rho).1.getD i 0
      ≤ (gen_power_curves f min_ci pct delta A cp rho).2.1.getD i 0) :
    (f.index.getD k 0 < (gen_power_curves f min_ci pct delta A cp rho).1.getD i 0 →
      ((gen_power_curves f min_ci pct delta A cp rho).2.2.getD i []).getD k 0 = 0)
    ∧ ((gen_power_curves f min_ci pct delta A cp rho).1.getD i 0 ≤ f.index.getD k 0
        ∧ f.index.getD k 0 < (gen_power_curves f min_ci pct delta A cp rho).2.1.getD i 0 →
      ((gen_power_curves f min_ci pct delta A cp rho).2.2.getD i []).getD k 0
        = 1/2 * cp * A * rho * (f.index.getD k 0) ^ 3)
    ∧ ((gen_power_curves f min_ci pct delta A cp rho).2.1.getD i 0 ≤ f.index.getD k 0 →
      ((gen_power_curves f min_ci pct delta A cp rho).2.2.getD i []).getD k 0
        = 1/2 * cp * A * rho
            * ((gen_power_curves f min_ci pct delta A cp rho).2.1.getD i 0) ^ 3) := by
  simp only [gen_power_curves] at hi hpair ⊢
  rw [getD_map_of_lt _ _ i (by simpa using hi) ([] : List ℚ) 0,
    getD_range_of_lt _ i (by simpa using hi) 0,
    getD_map_of_lt f.index _ k hk 0 0]
  unfold powerValue
  refine ⟨fun h => if_pos h, fun h => ?_, fun h => ?_⟩
  · rw [if_neg (not_lt.mpr h.1), if_pos h]
  · have h1 : ¬ (f.index.getD k 0
        < (arange min_ci (min_ci * 4 + delta) delta).getD i 0) :=
      not_lt.mpr (le_trans hpair h)
    have h2 : ¬ ((arange min_ci (min_ci * 4 + delta) delta).getD i 0 ≤ f.index.getD k 0
        ∧ f.index.getD k 0 < ((arange min_ci (min_ci * 4 + delta) delta).map
          (fun v => (roundHalfEven (v * (100 / pct) / delta) : ℚ) * delta)).getD i 0) :=
      fun hh => absurd hh.2 (not_lt.mpr h)
    rw [if_neg h1, if_neg h2]

/-- C1 witness: concrete parameters where the pair is (1, 2) and the bin
edge 1 equals the cut-in, resolving to the cubic branch. -/
theorem C1_power_piecewise_witness :
    ((gen_power_curves ⟨[1], []⟩ 1 50 1 1 1 1).1.getD 0 0
      ≤ (gen_power_curves ⟨[1], []⟩ 1 50 1 1 1 1).2.1.getD 0 0)
    ∧ ((gen_power_curves ⟨[1], []⟩ 1 50 1 1 1 1).2.2.getD 0 []).getD 0 0
        = 1/2 * 1 * 1 * 1 * ((FreqTable.mk [1] []).index.getD 0 0) ^ 3 :=
  ⟨by with_unfolding_all decide,
    (C1_power_piecewise ⟨[1], []⟩ 1 50 1 1 1 1 0 0 (by with_unfolding_all decide)
      (by decide) (by with_unfolding_all decide)).2.1 (by with_unfolding_all decide)⟩

/-- C9 counterexample: with min_cut_in = 1, min_rate_pct = 100 and
delta = 1 (all positive), the first generated pair is (1, 1), so cut-in is
not strictly below cut-out. -/
theorem C9_counterexample :
    (0 : ℕ) < (gen_power_curves ⟨[], []⟩ 1 100 1 1 1 1).1.length
    ∧ ¬ ((gen_power_curves ⟨[], []⟩ 1 100 1 1 1 1).1.getD 0 0
        < (gen_power_curves ⟨[], []⟩ 1 100 1 1 1 1).2.1.getD 0 0) := by
  with_unfolding_all decide

/-- C9 amended: every generated pair satisfies cut-in < cut-out provided
the ratio setting leaves room for the rounding of the cut-out, namely when
min_cut_in * (100/min_rate_pct - 1) exceeds delta/2 (this holds for the
repository configuration 0.2, 30, 0.025). -/
theorem C9_cut_in_lt_cut_out (f : FreqTable) (min_ci pct delta A cp rho : ℚ) (i : ℕ)
    (hmin : 0 < min_ci) (hdelta : 0 < delta) (hpct : 0 < pct)
    (hgap : delta / 2 < min_ci * (100 / pct - 1))
    (hi : i < (gen_power_curves f min_ci pct delta A cp rho).1.length) :
    (gen_power_curves f min_ci pct delta A cp rho).1.getD i 0
      < (gen_power_curves f min_ci pct delta A cp rho).2.1.getD i 0 := by
  simp only [gen_power_curves] at hi ⊢
  rw [getD_map_of_lt _ _ i (by simpa using hi) 0 0,
    arange_getD _ _ _ i (by simpa using hi) 0]
  set ci := min_ci + delta * (i : ℚ) with hci
  have hci_ge : min_ci ≤ ci := by
    have : (0 : ℚ) ≤ delta * (i : ℚ) := mul_nonneg hdelta.le (Nat.cast_nonneg i)
    rw [hci]
    linarith
  have hr : (1 : ℚ) < 100 / pct := by
    by_contra hcon
    push_neg at hcon
    have : min_ci * (100 / pct - 1) ≤ 0 :=
      mul_nonpos_iff.mpr (Or.inl ⟨hmin.le, by linarith⟩)
    linarith
  have hround := roundHalfEven_ge (ci * (100 / pct) / delta)
  have hmul : (ci * (100 / pct) / delta - 1/2) * delta
      ≤ (roundHalfEven (ci * (100 / pct) / delta) : ℚ) * delta :=
    mul_le_mul_of_nonneg_right hround hdelta.le
  have hsimp : (ci * (100 / pct) / delta - 1/2) * delta
      = ci * (100 / pct) - delta / 2 := by
    field_simp
    ring
  rw [hsimp] at hmul
  have h1 : min_ci * (100 / pct - 1) ≤ ci * (100 / pct - 1) :=
    mul_le_mul_of_nonneg_right hci_ge (by linarith)
  have hexp : ci * (100 / pct - 1) = ci * (100 / pct) - ci := by ring
  linarith

/-- C9 amended witness at the parameters min_cut_in = 1, pct = 50, delta = 1. -/
theorem C9_cut_in_lt_cut_out_witness :
    ((1:ℚ)/2 < 1 * (100/50 - 1))
    ∧ (gen_power_curves ⟨[], []⟩ 1 50 1 1 1 1).1.getD 0 0
        < (gen_power_curves ⟨[], []⟩ 1 50 1 1 1 1).2.1.getD 0 0 :=
  ⟨by norm_num,
    C9_cut_in_lt_cut_out ⟨[], []⟩ 1 50 1 1 1 1 0 (by norm_num) (by norm_num)
      (by norm_num) (by norm_num) (by with_unfolding_all decide)⟩

/-- C7: for every rated speed of the sweep, the actual cumulative energy of
cumulate_power_time_series equals the sum over nodes of the per-node energy
that optimal_rs_per_node computes (power_per_rs) at the same rated speed,
and the two per-sample piecewise rules coincide. -/
theorem C7_actual_energy_refines_per_node (min_rs max_rs delta rho A cp : ℚ)
    (nodes : List (List ℚ)) (j : ℕ)
    (hj : j < (arange min_rs (max_rs + delta) delta).length) :
    (cumulate_power_time_series min_rs max_rs nodes delta rho A cp).1.getD j 0
      = (nodes.map (fun node =>
          (power_per_rs cp A rho (arange min_rs (max_rs + delta) delta) node).getD j 0)).sum
    ∧ ∀ rs v : ℚ, samplePowerTS cp A rho rs v = samplePowerOpt cp A rho rs v := by
  constructor
  · simp only [cumulate_power_time_series]
    rw [getD_map_of_lt _ _ j hj 0 0]
    congr 1
    apply List.map_congr_left
    intro node _
    unfold power_per_rs
    rw [getD_map_of_lt _ _ j hj 0 0]
    rfl
  · intro rs v
    rfl

/-- C7 witness on one node with one sample and the sweep from 1 to 2. -/
theorem C7_actual_energy_refines_per_node_witness :
    (0 : ℕ) < (arange 1 (2 + 1) 1).length
    ∧ (cumulate_power_time_series 1 2 [[(1 : ℚ)]] 1 1 1 1).1.getD 0 0
        = (([[(1 : ℚ)]] : List (List ℚ)).map (fun node =>
            (power_per_rs 1 1 1 (arange 1 (2 + 1) 1) node).getD 0 0)).sum :=
  ⟨by with_unfolding_all decide,
    (C7_actual_energy_refines_per_node 1 2 1 1 1 1 [[1]] 0 (by with_unfolding_all decide)).1⟩

/-- C8: per node, optimal_rs_per_node returns np.max of the power_per_rs
vector together with the rated speed at np.argmax; the argmax index
attains the maximum, every strictly earlier index is strictly below the
maximum, and among all maximizing indices the returned rated speed is the
smallest (the sweep is increasing), so ties break to the lowest index. -/
theorem C8_argmax_lowest_tie (min_rs max_rs delta rho A cp : ℚ)
    (nodes : List (List ℚ)) (m : ℕ) (rsvec pr : List ℚ)
    (hm : m < nodes.length) (hdelta : 0 < delta)
    (hrs : rsvec = arange min_rs (max_rs + delta) delta)
    (hne : rsvec ≠ [])
    (hpr : pr = power_per_rs cp A rho rsvec (nodes.getD m [])) :
    ((optimal_rs_per_node min_rs max_rs nodes delta rho A cp).2.getD m 0 = npmax pr)
    ∧ ((optimal_rs_per_node min_rs max_rs nodes delta rho A cp).1.getD m 0
        = rsvec.getD (npargmax pr) 0)
    ∧ (pr.getD (npargmax pr) 0 = npmax pr)
    ∧ (∀ k, k < npargmax pr → pr.getD k 0 < npmax pr)
    ∧ (∀ k, k < pr.length → pr.getD k 0 = npmax pr →
        rsvec.getD (npargmax pr) 0 ≤ rsvec.getD k 0) := by
  subst hrs
  subst hpr
  have hprne : power_per_rs cp A rho (arange min_rs (max_rs + delta) delta)
      (nodes.getD m []) ≠ [] := by
    unfold power_per_rs
    simpa using hne
  set rsvec := arange min_rs (max_rs + delta) delta with hrsvec
  set pr := power_per_rs cp A rho rsvec (nodes.getD m []) with hprdef
  have hprlen : pr.length = rsvec.length := by
    rw [hprdef]
    unfold power_per_rs
    exact List.length_map _ _
  have hmem : npmax pr ∈ pr := npmax_mem pr hprne
  have hidx : npargmax pr < pr.length := List.indexOf_lt_length.mpr hmem
  refine ⟨?_, ?_, ?_, ?_, ?_⟩
  · simp only [optimal_rs_per_node]
    rw [getD_map_of_lt _ _ m hm 0 []]
  · simp only [optimal_rs_per_node]
    rw [getD_map_of_lt _ _ m hm 0 []]
  · exact getD_indexOf pr (npmax pr) hmem
  · intro k hk
    have hneq := getD_lt_of_indexOf pr (npmax pr) k hk
    have hle := le_npmax pr (pr.getD k 0) (getD_mem_of_lt pr k (lt_trans hk hidx) 0)
    exact lt_of_le_of_ne hle hneq
  · intro k hk hkmax
    have hk2 : npargmax pr ≤ k := by
      by_contra hcon
      push_neg at hcon
      exact absurd hkmax (getD_lt_of_indexOf pr (npmax pr) k hcon)
    rw [hrsvec, arange_getD _ _ _ (npargmax pr) (by rw [← hrsvec, ← hprlen]; exact hidx) 0,
      arange_getD _ _ _ k (by rw [← hrsvec, ← hprlen]; exact hk) 0]
    have := mul_le_mul_of_nonneg_left (Nat.cast_le.mpr hk2 : ((npargmax pr : ℕ) : ℚ) ≤ (k : ℚ))
      hdelta.le
    linarith

/-- C8 witness: a single node with one sample over the sweep [1, 2], where
both rated speeds tie (both give rated output 1/2) and the lower one is
returned. -/
theorem C8_argmax_lowest_tie_witness :
    ((0 : ℕ) < ([[(1 : ℚ)]] : List (List ℚ)).length)
    ∧ (optimal_rs_per_node 1 2 [[(1 : ℚ)]] 1 1 1 1).2.getD 0 0
        = npmax (power_per_rs 1 1 1 (arange 1 (2 + 1) 1)
            (([[(1 : ℚ)]] : List (List ℚ)).getD 0 [])) :=
  ⟨by decide,
    (C8_argmax_lowest_tie 1 2 1 1 1 1 [[1]] 0 (arange 1 (2 + 1) 1)
      (power_per_rs 1 1 1 (arange 1 (2 + 1) 1) (([[(1 : ℚ)]] : List (List ℚ)).getD 0 []))
      (by decide) (by norm_num) rfl (by with_unfolding_all decide) rfl).1⟩

/-- C5 counterexample: with bin width 2 and max velocity 3 the edges are
0, 2, 4 and the sample 3.5 is counted (histogram total 1) although it lies
above Vmax = 3, so the total is not the number of samples in [0, Vmax]. -/
theorem C5_counterexample :
    (((get_histograms [[(7 : ℚ)/2]] 2 3).counts.getD 0 []).sum = 1)
    ∧ ([(7 : ℚ)/2] : List ℚ).countP
        (fun x => decide ((0 : ℚ) ≤ x) && decide (x ≤ 3)) = 0 := by
  with_unfolding_all decide

/-- C5 amended: per node the histogram counts sum to the number of samples
in [0, E] where E = bin_size * (number of bins) is the top edge produced by
np.arange; E is at least Vmax (equal exactly when Vmax is a multiple of the
bin width). Samples below 0 or above E are dropped silently, and every
sample of [0, E] is counted in exactly one bin, the last bin being closed. -/
theorem C5_histogram_conservation (data : List (List ℚ)) (b M : ℚ)
    (hb : 0 < b) (hM : 0 < M) (j : ℕ) (hj : j < data.length) :
    (((get_histograms data b M).counts.getD j []).sum
        = (data.getD j []).countP (fun x => decide (0 ≤ x)
            && decide (x ≤ b * (((get_histograms data b M).index.length : ℕ) : ℚ))))
    ∧ M ≤ b * (((get_histograms data b M).index.length : ℕ) : ℚ)
    ∧ (∀ x : ℚ, 0 ≤ x → x ≤ b * (((get_histograms data b M).index.length : ℕ) : ℚ) →
        (histCounts (arange 0 (M + b) b) [x]).sum = 1)
    ∧ (∀ x : ℚ, x < 0 → (histCounts (arange 0 (M + b) b) [x]).sum = 0)
    ∧ (∀ x : ℚ, b * (((get_histograms data b M).index.length : ℕ) : ℚ) < x →
        (histCounts (arange 0 (M + b) b) [x]).sum = 0) := by
  have hidx : (get_histograms data b M).index.length
      = (arange 0 (M + b) b).length - 1 := by
    simp only [get_histograms]
    exact List.length_drop 1 _
  have hcast : (((arange 0 (M + b) b).length - 1 : ℕ) : ℚ) = ((⌈M / b⌉ : ℤ) : ℚ) := by
    rw [arange_hist_length b M hb hM]
    have hpos : (0 : ℤ) ≤ ⌈M / b⌉ := le_of_lt (Int.ceil_pos.mpr (div_pos hM hb))
    simp only [Nat.add_sub_cancel]
    exact_mod_cast congrArg (fun (z : ℤ) => (z : ℚ)) (Int.toNat_of_nonneg hpos)
  have hME : M ≤ b * (((arange 0 (M + b) b).length - 1 : ℕ) : ℚ) := by
    rw [hcast]
    have hle := mul_le_mul_of_nonneg_left (Int.le_ceil (M / b)) hb.le
    have hMb : b * (M / b) = M := by field_simp
    linarith
  refine ⟨?_, ?_, ?_, ?_, ?_⟩
  · have hnode : (get_histograms data b M).counts.getD j []
        = histCounts (arange 0 (M + b) b) (data.getD j []) := by
      simp only [get_histograms]
      exact getD_map_of_lt data _ j hj [] []
    rw [hnode, histCounts_sum b M hb hM, hidx]
    rfl
  · rw [hidx]
    exact hME
  · intro x h0 hxE
    rw [hidx] at hxE
    rw [histCounts_sum b M hb hM [x]]
    unfold countBin
    simp [List.countP_cons, h0, hxE]
  · intro x hx
    rw [histCounts_sum b M hb hM [x]]
    unfold countBin
    simp [List.countP_cons, not_le.mpr hx]
  · intro x hxE
    rw [hidx] at hxE
    rw [histCounts_sum b M hb hM [x]]
    unfold countBin
    simp [List.countP_cons, not_le.mpr hxE]

/-- C5 amended witness on one node holding the single sample 1/2 with bin
width 1 and max velocity 2. -/
theorem C5_histogram_conservation_witness :
    ((0 : ℚ) < 1) ∧ ((0 : ℚ) < 2)
    ∧ (((get_histograms [[(1 : ℚ)/2]] 1 2).counts.getD 0 []).sum
        = ([(1 : ℚ)/2] : List ℚ).countP (fun x => decide (0 ≤ x)
            && decide (x ≤ 1 * (((get_histograms [[(1 : ℚ)/2]] 1 2).index.length : ℕ) : ℚ)))) :=
  ⟨by norm_num, by norm_num,
    (C5_histogram_conservation [[(1 : ℚ)/2]] 1 2 (by norm_num) (by norm_num) 0 (by decide)).1⟩

lemma getD_zipWith {α β γ : Type} (f : α → β → γ) (as : List α) (bs : List β) (j : ℕ)
    (ha : j < as.length) (hb : j < bs.length) (d : γ) (da : α) (db : β) :
    (List.zipWith f as bs).getD j d = f (as.getD j da) (bs.getD j db) := by
  induction as generalizing bs j with
  | nil => simp at ha
  | cons a as' ih =>
    cases bs with
    | nil => simp at hb
    | cons b bt =>
      cases j with
      | zero => rfl
      | succ k =>
        simp only [List.zipWith_cons_cons, List.getD_cons_succ]
        exact ih bt k (by simpa using ha) (by simpa using hb)

lemma samplePowerTS_bounds (cp A rho vr v : ℚ)
    (hcp : 0 < cp) (hA : 0 < A) (hrho : 0 < rho) (hvr : 0 < vr) :
    0 ≤ samplePowerTS cp A rho vr v
    ∧ samplePowerTS cp A rho vr v ≤ 1/2 * cp * A * rho * vr ^ 3 := by
  have hrate : 0 < 1/2 * cp * A * rho * vr ^ 3 := by positivity
  unfold samplePowerTS
  split_ifs with h1 h2
  · exact ⟨le_refl 0, hrate.le⟩
  · have hv0 : 0 < v := lt_of_lt_of_le (by positivity : (0 : ℚ) < vr * (3/10)) h2.1
    constructor
    · positivity
    · have hpow : v ^ 3 ≤ vr ^ 3 := pow_le_pow_left₀ hv0.le h2.2.le 3
      have := mul_le_mul_of_nonneg_left hpow (by positivity : (0 : ℚ) ≤ 1/2 * cp * A * rho)
      linarith
  · exact ⟨hrate.le, le_refl _⟩

lemma capacity_body (cp A rho vr : ℚ) (nodes : List (List ℚ))
    (hcp : 0 < cp) (hA : 0 < A) (hrho : 0 < rho) (hvr : 0 < vr)
    (hnode : ∃ nd ∈ nodes, nd ≠ []) :
    (0 ≤ (nodes.map (fun node => (node.map (samplePowerTS cp A rho vr)).sum)).sum)
    ∧ ((nodes.map (fun node => (node.map (samplePowerTS cp A rho vr)).sum)).sum
        ≤ (nodes.map (fun node => (node.map (fun _ => 1/2 * cp * A * rho * vr ^ 3)).sum)).sum)
    ∧ (0 < (nodes.map (fun node => (node.map (fun _ => 1/2 * cp * A * rho * vr ^ 3)).sum)).sum) := by
  have hrate : 0 < 1/2 * cp * A * rho * vr ^ 3 := by positivity
  refine ⟨?_, ?_, ?_⟩
  · apply List.sum_nonneg
    intro y hy
    rcases List.mem_map.mp hy with ⟨node, _, rfl⟩
    apply List.sum_nonneg
    intro z hz
    rcases List.mem_map.mp hz with ⟨v, _, rfl⟩
    exact (samplePowerTS_bounds cp A rho vr v hcp hA hrho hvr).1
  · apply List.sum_le_sum
    intro node _
    apply List.sum_le_sum
    intro v _
    exact (samplePowerTS_bounds cp A rho vr v hcp hA hrho hvr).2
  · obtain ⟨nd, hndmem, hndne⟩ := hnode
    have hmem : (fun (node : List ℚ) => (node.map (fun _ => 1/2 * cp * A * rho * vr ^ 3)).sum) nd
        ∈ nodes.map (fun node => (node.map (fun _ => 1/2 * cp * A * rho * vr ^ 3)).sum) :=
      List.mem_map_of_mem _ hndmem
    apply sum_pos_of_exists_mem _ ?_ _ hmem
    · show 0 < (nd.map (fun _ => 1/2 * cp * A * rho * vr ^ 3)).sum
      obtain ⟨y, hy⟩ := List.exists_mem_of_ne_nil nd hndne
      have hmem2 : (fun (_ : ℚ) => 1/2 * cp * A * rho * vr ^ 3) y
          ∈ nd.map (fun _ => 1/2 * cp * A * rho * vr ^ 3) :=
        List.mem_map_of_mem _ hy
      apply sum_pos_of_exists_mem _ ?_ _ hmem2 hrate
      intro z hz
      rcases List.mem_map.mp hz with ⟨v, _, rfl⟩
      exact hrate.le
    · intro y hy
      rcases List.mem_map.mp hy with ⟨node, _, rfl⟩
      apply List.sum_nonneg
      intro z hz
      rcases List.mem_map.mp hz with ⟨v, _, rfl⟩
      exact hrate.le

/-- C2: for every rated speed of a valid sweep (positive bounds and step)
and positive turbine constants, and any input with at least one nonempty
node, the capacity factor returned by cumulate_power_time_series is a
defined value in [0, 1]. -/
theorem C2_capacity_factor_unit_interval (min_rs max_rs delta rho A cp : ℚ)
    (nodes : List (List ℚ)) (j : ℕ)
    (hmin : 0 < min_rs) (hdelta : 0 < delta) (hrho : 0 < rho) (hA : 0 < A) (hcp : 0 < cp)
    (hnode : ∃ nd ∈ nodes, nd ≠ [])
    (hj : j < (arange min_rs (max_rs + delta) delta).length) :
    ∃ q : ℚ, (cumulate_power_time_series min_rs max_rs nodes delta rho A cp).2.getD j none
        = some q ∧ 0 ≤ q ∧ q ≤ 1 := by
  have hvr : 0 < (arange min_rs (max_rs + delta) delta).getD j 0 := by
    rw [arange_getD _ _ _ j hj 0]
    have h0 : (0 : ℚ) ≤ delta * (j : ℚ) := mul_nonneg hdelta.le (Nat.cast_nonneg j)
    linarith
  obtain ⟨h0le, hle, hpos⟩ := capacity_body cp A rho _ nodes hcp hA hrho hvr hnode
  simp only [cumulate_power_time_series]
  rw [getD_zipWith _ _ _ j (by simpa using hj) (by simpa using hj) none 0 0,
    getD_map_of_lt _ _ j hj 0 0, getD_map_of_lt _ _ j hj 0 0]
  rw [if_neg (ne_of_gt hpos)]
  exact ⟨_, rfl, div_nonneg h0le hpos.le, (div_le_one hpos).mpr hle⟩

/-- C2 witness: single node with the single sample 1 over the sweep from 1
to 2 in steps of 1; the capacity factor at the first rated speed is defined
and lies in [0, 1]. -/
theorem C2_capacity_factor_unit_interval_witness :
    (∃ nd ∈ ([[(1 : ℚ)]] : List (List ℚ)), nd ≠ [])
    ∧ ∃ q : ℚ, (cumulate_power_time_series 1 2 [[(1 : ℚ)]] 1 1 1 1).2.getD 0 none
        = some q ∧ 0 ≤ q ∧ q ≤ 1 :=
  ⟨⟨[1], by decide, by decide⟩,
    C2_capacity_factor_unit_interval 1 2 1 1 1 1 [[1]] 0 (by norm_num) (by norm_num)
      (by norm_num) (by norm_num) (by norm_num) ⟨[1], by decide, by decide⟩
      (by with_unfolding_all decide)⟩
